import Mathlib

/-!
Verification of the parquet2 low-level decode core: the BIT_PACKED block
decoder (`src/encoding/bit_packed.rs`) and the deserialization iterator
combinators (`src/deserialize/utils.rs`), shallowly embedded over `Nat` and
`List`.  Machine integers (`u32`) are modelled as natural numbers reduced
modulo `2^32` where the Rust code can overflow; byte buffers are `List Nat`;
panicking operations are modelled with `Except Unit` (the `.error ()` case
standing for a Rust panic).
-/

def two32 : Nat := 4294967296

/-- Bitwise combination of two 32-bit words, low bit first, one fuel unit per
bit (`f` combines one pair of bits).  Truncates both operands to 32 bits,
matching the `u32` width.  Defined by structural recursion so that concrete
instances evaluate by `rfl`. -/
def bitZip32 (f : Nat → Nat → Nat) : Nat → Nat → Nat → Nat
  | 0, _, _ => 0
  | fuel + 1, x, y => f (x % 2) (y % 2) + 2 * bitZip32 f fuel (x / 2) (y / 2)

/-- Bitwise `|` on `u32`. -/
def lor32 (x y : Nat) : Nat := bitZip32 max 32 x y

/-- Bitwise `&` on `u32`. -/
def land32 (x y : Nat) : Nat := bitZip32 min 32 x y

/-- Rust release builds mask the shift amount of `<<` by the register width;
this models `x << s` on `u32` under that semantics. -/
def wrapShl (x s : Nat) : Nat := (x <<< (s % 32)) % two32

/-- Embedding of `saturating_shl` from `bit_packed.rs`: yields 0 when the
shift amount equals the register width. -/
def satShl (x s : Nat) : Nat := if s = 32 then 0 else (x <<< s) % two32

/-- Embedding of `u32::from_be_bytes` applied to four bytes. -/
def u32ofBE (b0 b1 b2 b3 : Nat) : Nat :=
  lor32 (lor32 ((b0 % 256) <<< 24) ((b1 % 256) <<< 16)) (lor32 ((b2 % 256) <<< 8) (b3 % 256))

/-- Fueled worker for `windows4` (structural recursion on the fuel, so that
concrete instances evaluate inside the kernel). -/
def windows4Go : Nat → List Nat → List Nat
  | 0, _ => []
  | fuel + 1, bs =>
    match bs with
    | b0 :: b1 :: b2 :: b3 :: _ => u32ofBE b0 b1 b2 b3 :: windows4Go fuel bs.tail
    | _ => []

/-- Embedding of `compressed.windows(4).map(u32::from_be_bytes)`: the
*overlapping* length-4 windows of the byte buffer, each read big-endian. -/
def windows4 (bs : List Nat) : List Nat := windows4Go bs.length bs

/-- State of the three-register pipeline in `decompress`. -/
structure DState where
  currentPack : Nat
  nextPack : Nat
  nextNextPack : Nat
  remainingBits : Nat
  loadNext : Bool
  packs : List Nat

/-- The refill branch of `decompress` (taken when `remaining_bits < num_bits`). -/
def refill (s : DState) : DState :=
  let current := lor32 s.currentPack (s.nextPack >>> s.remainingBits)
  let next0 := satShl s.nextPack (32 - s.remainingBits)
  if s.loadNext then
    let nn := s.packs.headD 0
    ⟨current, lor32 next0 (nn >>> s.remainingBits), satShl nn (32 - s.remainingBits),
      32, false, s.packs.tail⟩
  else
    ⟨current, lor32 next0 (s.nextNextPack >>> s.remainingBits), s.nextNextPack,
      32, true, s.packs⟩

/-- One iteration of the `for_each` loop body of `decompress`: refill if
needed, then extract the top `numBits` bits of `current_pack`. -/
def dstep (numBits : Nat) (s : DState) : Nat × DState :=
  let s := if s.remainingBits < numBits then refill s else s
  let mask := (4294967295 <<< (32 - numBits)) % two32
  let a := land32 s.currentPack mask
  (a >>> (32 - numBits),
   ⟨wrapShl s.currentPack numBits, s.nextPack, s.nextNextPack,
    s.remainingBits - numBits, s.loadNext, s.packs⟩)

/-- Iterate `dstep` to fill `n` output slots. -/
def decompressGo (numBits : Nat) : Nat → DState → List Nat
  | 0, _ => []
  | n + 1, s =>
    let p := dstep numBits s
    p.1 :: decompressGo numBits n p.2

/-- Embedding of `decompress` from `bit_packed.rs`: fills a block of 32
values from the (window-)pack stream of the byte buffer. -/
def decompress (compressed : List Nat) (numBits : Nat) : List Nat :=
  let ps := windows4 compressed
  decompressGo numBits 32 ⟨ps.headD 0, ps.tail.headD 0, 0, 32, true, ps.tail.tail⟩

/-- Embedding of `decode_pack`: when the remaining bytes are fewer than a
full block footprint (`32 * num_bits / 8`), copy them into a zero-initialized
128-byte scratch buffer before unpacking. -/
def decodePack (compressed : List Nat) (numBits : Nat) : List Nat :=
  if compressed.length < 32 * numBits / 8 then
    decompress (compressed ++ List.replicate (128 - compressed.length) 0) numBits
  else
    decompress compressed numBits

/-- `slice::chunks` with explicit fuel (the list length bounds the recursion). -/
def chunksGo (k : Nat) : Nat → List Nat → List (List Nat)
  | _, [] => []
  | 0, _ => []
  | fuel + 1, b :: bs => ((b :: bs).take k) :: chunksGo k fuel ((b :: bs).drop k)

/-- Embedding of `compressed.chunks(k)` as a list of chunks (the last chunk
may be shorter); `k = 0` is handled separately at the call site because Rust
panics on `chunks(0)`. -/
def chunksList (bs : List Nat) (k : Nat) : List (List Nat) := chunksGo k bs.length bs

/-- Embedding of the `Decoder` struct of `bit_packed.rs`. -/
structure BPDecoder where
  chunks : List (List Nat)
  numBits : Nat
  remaining : Nat
  currentPackIndex : Nat
  currentPack : List Nat

/-- Embedding of `Decoder::new`.  `.error ()` models the two construction
panics of the Rust code: `chunks(0)` panics when `32 * num_bits / 8 = 0`,
and `compressed_chunks.next().unwrap()` panics when the buffer is empty. -/
def BPDecoder.new (compressed : List Nat) (numBits : Nat) (length : Nat) :
    Except Unit BPDecoder :=
  if 32 * numBits / 8 = 0 then .error ()
  else
    match chunksList compressed (32 * numBits / 8) with
    | [] => .error ()
    | c :: rest => .ok ⟨rest, numBits, length, 0, decodePack c numBits⟩

/-- The state update performed by `Decoder::next` after reading an element. -/
def bpAdvance (d : BPDecoder) : BPDecoder :=
  let idx := d.currentPackIndex + 1
  if idx = 32 then
    match d.chunks with
    | c :: rest => ⟨rest, d.numBits, d.remaining - 1, 0, decodePack c d.numBits⟩
    | [] => ⟨[], d.numBits, d.remaining - 1, idx, d.currentPack⟩
  else ⟨d.chunks, d.numBits, d.remaining - 1, idx, d.currentPack⟩

/-- Embedding of `Decoder::next`.  `.error ()` models the out-of-bounds panic
of `self.current_pack[self.current_pack_index]`. -/
def bpNext (d : BPDecoder) : Except Unit (Option (Nat × BPDecoder)) :=
  if d.remaining = 0 then .ok none
  else if h : d.currentPackIndex < d.currentPack.length then
    .ok (some (d.currentPack.get ⟨d.currentPackIndex, h⟩, bpAdvance d))
  else .error ()

/-- Embedding of `Decoder::size_hint`. -/
def bpSizeHint (d : BPDecoder) : Nat × Option Nat := (d.remaining, some d.remaining)

/-- Pull up to `n` items from the decoder, stopping at the first `None` and
propagating a panic. -/
def bpRun : Nat → BPDecoder → Except Unit (List Nat × BPDecoder)
  | 0, d => .ok ([], d)
  | n + 1, d =>
    match bpNext d with
    | .error e => .error e
    | .ok none => .ok ([], d)
    | .ok (some (x, d')) =>
      match bpRun n d' with
      | .error e => .error e
      | .ok (xs, d'') => .ok (x :: xs, d'')

/-- Embedding of `Decoder::new(..).collect::<Vec<_>>()`: construct and pull
until exhaustion (`length + 1` pulls witness the trailing `None`). -/
def bpDecode (compressed : List Nat) (numBits : Nat) (length : Nat) :
    Except Unit (List Nat) :=
  match BPDecoder.new compressed numBits length with
  | .error e => .error e
  | .ok d =>
    match bpRun (length + 1) d with
    | .error e => .error e
    | .ok (xs, _) => .ok xs

/-- Big-endian value of a bit list (each entry 0 or 1). -/
def bitsToNat (bits : List Nat) : Nat := bits.foldl (fun acc b => 2 * acc + b) 0

/-- The `w` bits of a value, most significant first. -/
def natToBits (w v : Nat) : List Nat :=
  (List.range w).map (fun i => (v >>> (w - 1 - i)) % 2)

/-- The 8 bits of a byte, most significant first. -/
def byteBits (b : Nat) : List Nat := natToBits 8 b

/-- Modelled from the spec: the BIT_PACKED packing of a value sequence —
values packed MSB-first at `w` bits each into a contiguous bitstream, with
trailing bits of the last byte implicitly zero.  (The write-side encoder is
outside the source core; this is the reference direction of the round trip.) -/
def packBits (w : Nat) (vals : List Nat) : List Nat :=
  let bits := (vals.map (natToBits w)).flatten
  let padded := bits ++ List.replicate ((8 - bits.length % 8) % 8) 0
  (chunksGo 8 padded.length padded).map bitsToNat

/-- Modelled from the spec: the reference BIT_PACKED unpacking — the `i`-th
value is the big-endian number formed by bits `i*w .. (i+1)*w` of the byte
buffer's MSB-first bitstream, missing trailing bits read as zero. -/
def specUnpack (w : Nat) (bytes : List Nat) (n : Nat) : List Nat :=
  let bits := (bytes.map byteBits).flatten
  (List.range n).map (fun i =>
    let chunk := (bits.drop (i * w)).take w
    bitsToNat (chunk ++ List.replicate (w - chunk.length) 0))

set_option maxRecDepth 40000 in
/-- C1: the concrete fixture decodes correctly, but the general round trip
fails: packing `[0,1,2,3,4,5,6,7]` at bit width 8 per the BIT_PACKED format
gives the bytes `[0,1,2,3,4,5,6,7]`, which `Decoder::new(buffer, 8, 8)`
decodes to `[0,1,2,3,1,2,3,4]`, not the original sequence — `decompress`
reads the pack stream through *overlapping* `windows(4)`, so every refill
after the first 32 bits re-reads already-consumed bytes. -/
theorem bit_packed_round_trip_violation :
    bpDecode [5, 57, 119] 3 8 = .ok [0, 1, 2, 3, 4, 5, 6, 7] ∧
    packBits 8 [0, 1, 2, 3, 4, 5, 6, 7] = [0, 1, 2, 3, 4, 5, 6, 7] ∧
    bpDecode (packBits 8 [0, 1, 2, 3, 4, 5, 6, 7]) 8 8 = .ok [0, 1, 2, 3, 1, 2, 3, 4] ∧
    ([0, 1, 2, 3, 1, 2, 3, 4] : List Nat) ≠ [0, 1, 2, 3, 4, 5, 6, 7] :=
  ⟨rfl, rfl, rfl, by decide⟩

set_option maxRecDepth 40000 in
/-- C3: `decode_pack` does copy a short buffer into a zero-initialized
scratch buffer before unpacking, but the decoded values are *not* correct for
the first `length` elements: the 8-byte buffer `[0,1,2,3,4,5,6,7]` at bit
width 8 (block footprint 32 bytes) is zero-padded and then mis-decoded to
`[0,1,2,3,1,2,3,4]`, where the format prescribes `[0,1,2,3,4,5,6,7]`. -/
theorem decode_pack_partial_block_violation :
    ([0, 1, 2, 3, 4, 5, 6, 7] : List Nat).length < 32 * 8 / 8 ∧
    decodePack [0, 1, 2, 3, 4, 5, 6, 7] 8 =
      decompress ([0, 1, 2, 3, 4, 5, 6, 7] ++ List.replicate 120 0) 8 ∧
    (decodePack [0, 1, 2, 3, 4, 5, 6, 7] 8).take 8 = [0, 1, 2, 3, 1, 2, 3, 4] ∧
    specUnpack 8 [0, 1, 2, 3, 4, 5, 6, 7] 8 = [0, 1, 2, 3, 4, 5, 6, 7] ∧
    ([0, 1, 2, 3, 1, 2, 3, 4] : List Nat) ≠ [0, 1, 2, 3, 4, 5, 6, 7] :=
  ⟨by decide, rfl, rfl, rfl, by decide⟩

/-- C6: construction is *not* a valid immediately-exhausted decoder on an
empty buffer, and bit width 0 is *not* accepted: `Decoder::new` panics
(`unwrap` on a missing first chunk) for every empty buffer — even with
declared length 0 — and panics (`chunks(0)`) for bit width 0 on every
buffer. -/
theorem decoder_new_empty_or_zero_width_panics :
    (∀ w len : Nat, BPDecoder.new [] w len = .error ()) ∧
    (∀ (bs : List Nat) (len : Nat), BPDecoder.new bs 0 len = .error ()) := by
  constructor
  · intro w len
    unfold BPDecoder.new
    split
    · rfl
    · rfl
  · intro bs len
    rfl

/-- Remaining element capacity of a decoder state: slots left in the current
pack plus 32 per undecoded chunk. -/
def capRem (d : BPDecoder) : Nat :=
  (32 - d.currentPackIndex) + 32 * d.chunks.length

/-- Well-formedness of a reachable decoder state: the current pack holds 32
values, the index never exceeds 32, and it sits at 32 only once the chunk
stream is exhausted. -/
def BPWf (d : BPDecoder) : Prop :=
  d.currentPack.length = 32 ∧ d.currentPackIndex ≤ 32 ∧
    (d.currentPackIndex = 32 → d.chunks = [])

theorem decompressGo_length (nb : Nat) : ∀ (n : Nat) (s : DState),
    (decompressGo nb n s).length = n := by
  intro n
  induction n with
  | zero => intro s; rfl
  | succ n ih => intro s; simp [decompressGo, ih]

theorem decodePack_length (c : List Nat) (nb : Nat) : (decodePack c nb).length = 32 := by
  unfold decodePack decompress
  split <;> exact decompressGo_length nb 32 _

theorem bpNext_none (d : BPDecoder) (h : d.remaining = 0) : bpNext d = .ok none := by
  simp [bpNext, h]

theorem bpAdvance_cases (d : BPDecoder) :
    (d.currentPackIndex + 1 = 32 ∧ (∃ c rest, d.chunks = c :: rest ∧
        bpAdvance d = ⟨rest, d.numBits, d.remaining - 1, 0, decodePack c d.numBits⟩)) ∨
    (d.currentPackIndex + 1 = 32 ∧ d.chunks = [] ∧
        bpAdvance d = ⟨[], d.numBits, d.remaining - 1, d.currentPackIndex + 1, d.currentPack⟩) ∨
    (d.currentPackIndex + 1 ≠ 32 ∧
        bpAdvance d = ⟨d.chunks, d.numBits, d.remaining - 1, d.currentPackIndex + 1, d.currentPack⟩) := by
  by_cases h32 : d.currentPackIndex + 1 = 32
  · cases hcs : d.chunks with
    | nil =>
      refine Or.inr (Or.inl ⟨h32, rfl, ?_⟩)
      simp [bpAdvance, h32, hcs]
    | cons c rest =>
      refine Or.inl ⟨h32, c, rest, rfl, ?_⟩
      simp [bpAdvance, h32, hcs]
  · refine Or.inr (Or.inr ⟨h32, ?_⟩)
    simp [bpAdvance, h32]

theorem bpNext_some (d : BPDecoder) (hwf : BPWf d) (hr : d.remaining ≠ 0)
    (hc : 0 < capRem d) :
    (∃ x, bpNext d = .ok (some (x, bpAdvance d))) ∧ BPWf (bpAdvance d) ∧
      (bpAdvance d).remaining = d.remaining - 1 ∧
      capRem (bpAdvance d) = capRem d - 1 := by
  obtain ⟨hlen, hle, hch⟩ := hwf
  have hidx : d.currentPackIndex < 32 := by
    by_contra h
    have h32 : d.currentPackIndex = 32 := by omega
    have hnil := hch h32
    unfold capRem at hc
    rw [h32, hnil] at hc
    simp at hc
  have hidx' : d.currentPackIndex < d.currentPack.length := by omega
  refine ⟨⟨d.currentPack.get ⟨d.currentPackIndex, hidx'⟩, by simp [bpNext, hr, hidx']⟩, ?_⟩
  rcases bpAdvance_cases d with ⟨h32, c, rest, hcs, hadv⟩ | ⟨h32, hcs, hadv⟩ | ⟨h32, hadv⟩
  · rw [hadv]
    refine ⟨⟨decodePack_length c d.numBits, by show (0 : Nat) ≤ 32; omega, ?_⟩, rfl, ?_⟩
    · intro h
      exact absurd (show (0 : Nat) = 32 from h) (by omega)
    · show 32 - 0 + 32 * rest.length = capRem d - 1
      unfold capRem
      rw [hcs]
      simp
      omega
  · rw [hadv]
    refine ⟨⟨hlen, by show d.currentPackIndex + 1 ≤ 32; omega, fun _ => rfl⟩, rfl, ?_⟩
    show 32 - (d.currentPackIndex + 1) + 32 * ([] : List (List Nat)).length = capRem d - 1
    unfold capRem
    rw [hcs]
    simp
    omega
  · rw [hadv]
    refine ⟨⟨hlen, by show d.currentPackIndex + 1 ≤ 32; omega, fun h => absurd h h32⟩, rfl, ?_⟩
    show 32 - (d.currentPackIndex + 1) + 32 * d.chunks.length = capRem d - 1
    unfold capRem
    omega

theorem bpNext_err (d : BPDecoder) (hwf : BPWf d) (hr : d.remaining ≠ 0)
    (hc : capRem d = 0) : bpNext d = .error () := by
  obtain ⟨hlen, hle, _⟩ := hwf
  have h32 : d.currentPackIndex = 32 := by unfold capRem at hc; omega
  have : ¬ d.currentPackIndex < d.currentPack.length := by omega
  simp [bpNext, hr, this]

theorem bpRun_zero_rem (n : Nat) (d : BPDecoder) (h : d.remaining = 0) :
    bpRun n d = .ok ([], d) := by
  cases n with
  | zero => rfl
  | succ n => simp [bpRun, bpNext_none d h]

theorem bpRun_core : ∀ (n : Nat) (d : BPDecoder), BPWf d → n ≤ d.remaining →
    n ≤ capRem d →
    ∃ xs d', bpRun n d = .ok (xs, d') ∧ xs.length = n ∧
      d'.remaining = d.remaining - n ∧ capRem d' = capRem d - n ∧ BPWf d' := by
  intro n
  induction n with
  | zero =>
    intro d hwf _ _
    exact ⟨[], d, rfl, rfl, by omega, by omega, hwf⟩
  | succ n ih =>
    intro d hwf h1 h2
    obtain ⟨⟨x, heq⟩, hwf', hrem, hcap⟩ := bpNext_some d hwf (by omega) (by omega)
    obtain ⟨xs, d', hrun, hlen, hrem', hcap', hwf''⟩ :=
      ih (bpAdvance d) hwf' (by omega) (by omega)
    refine ⟨x :: xs, d', ?_, by simp [hlen], by omega, by omega, hwf''⟩
    simp [bpRun, heq, hrun]

theorem bpRun_succ_some (n : Nat) (d d' : BPDecoder) (x : Nat)
    (h : bpNext d = .ok (some (x, d'))) :
    bpRun (n + 1) d = (bpRun n d').map (fun p => (x :: p.1, p.2)) := by
  rw [bpRun, h]
  cases hb : bpRun n d' with
  | error e =>
    simp [hb]
    rfl
  | ok p =>
    obtain ⟨ys, dd⟩ := p
    simp [hb]
    rfl

theorem bpRun_split : ∀ (a : Nat) (d : BPDecoder) (xs : List Nat) (d₁ : BPDecoder),
    bpRun a d = .ok (xs, d₁) → xs.length = a → ∀ b,
    bpRun (a + b) d = (bpRun b d₁).map (fun p => (xs ++ p.1, p.2)) := by
  intro a
  induction a with
  | zero =>
    intro d xs d₁ hrun hlen b
    have h0 : bpRun 0 d = .ok ([], d) := rfl
    rw [h0] at hrun
    have h1 : ([] : List Nat) = xs ∧ d = d₁ := by
      simpa using hrun
    obtain ⟨h1, h2⟩ := h1
    subst h2
    subst h1
    rw [Nat.zero_add]
    cases hb : bpRun b d with
    | error e => rfl
    | ok p => rfl
  | succ a ih =>
    intro d xs d₁ hrun hlen b
    rw [bpRun] at hrun
    cases hn : bpNext d with
    | error e => rw [hn] at hrun; exact absurd hrun (by simp)
    | ok o =>
      cases o with
      | none =>
        rw [hn] at hrun
        simp at hrun
        obtain ⟨h1, _⟩ := hrun
        rw [h1] at hlen
        simp at hlen
      | some p =>
        obtain ⟨x, d'⟩ := p
        rw [hn] at hrun
        simp at hrun
        cases hr2 : bpRun a d' with
        | error e => rw [hr2] at hrun; simp at hrun
        | ok q =>
          obtain ⟨ys, d''⟩ := q
          rw [hr2] at hrun
          simp at hrun
          obtain ⟨hxs, hd₁⟩ := hrun
          have hys : ys.length = a := by
            rw [← hxs] at hlen
            simpa using hlen
          have hab : a + 1 + b = (a + b) + 1 := by omega
          rw [hab, bpRun_succ_some (a + b) d d' x hn,
            ih d' ys d₁ (by rw [hr2, hd₁]) hys b]
          cases hb : bpRun b d₁ with
          | error e => rfl
          | ok p =>
            obtain ⟨zs, dz⟩ := p
            simp only [← hxs]
            rfl

theorem ceil_div_step (n k : Nat) (hk : 0 < k) (hn : 0 < n) :
    (n + k - 1) / k = 1 + (n - k + k - 1) / k := by
  rcases Nat.le_total n k with hle | hge
  · have h1 : n - k = 0 := by omega
    rw [h1]
    have h2 : (0 + k - 1) / k = 0 := Nat.div_eq_of_lt (by omega)
    rw [h2]
    have h3 : n + k - 1 = (n - 1) + k := by omega
    rw [h3, Nat.add_div_right _ hk]
    have h4 : (n - 1) / k = 0 := Nat.div_eq_of_lt (by omega)
    omega
  · have h3 : n + k - 1 = (n - k + k - 1) + k := by omega
    rw [h3, Nat.add_div_right _ hk]
    omega

theorem chunksGo_length (k : Nat) (hk : 0 < k) : ∀ (fuel : Nat) (bs : List Nat),
    bs.length ≤ fuel → (chunksGo k fuel bs).length = (bs.length + k - 1) / k := by
  intro fuel
  induction fuel with
  | zero =>
    intro bs h
    cases bs with
    | nil =>
      show (0 : Nat) = (0 + k - 1) / k
      exact (Nat.div_eq_of_lt (by omega)).symm
    | cons b bs' => simp at h
  | succ fuel ih =>
    intro bs h
    cases bs with
    | nil =>
      show (0 : Nat) = (0 + k - 1) / k
      exact (Nat.div_eq_of_lt (by omega)).symm
    | cons b bs' =>
      rw [chunksGo]
      simp only [List.length_cons]
      rw [ih ((b :: bs').drop k)
        (by simp only [List.length_drop, List.length_cons] at h ⊢; omega)]
      simp only [List.length_drop, List.length_cons]
      rw [ceil_div_step (bs'.length + 1) k hk (by omega)]
      omega

theorem BPDecoder_new_ok (bs : List Nat) (w len : Nat) (hbs : bs ≠ []) (hw : 1 ≤ w) :
    ∃ d, BPDecoder.new bs w len = .ok d ∧ BPWf d ∧ d.remaining = len ∧
      capRem d = 32 * ((bs.length + 32 * w / 8 - 1) / (32 * w / 8)) := by
  have hk : 0 < 32 * w / 8 := by omega
  cases hbs' : bs with
  | nil => exact absurd hbs' hbs
  | cons b bs' =>
    have hchunks : chunksList (b :: bs') (32 * w / 8) =
        ((b :: bs').take (32 * w / 8)) ::
          chunksGo (32 * w / 8) bs'.length ((b :: bs').drop (32 * w / 8)) := by
      show chunksGo _ (b :: bs').length (b :: bs') = _
      rw [List.length_cons, chunksGo]
    refine ⟨⟨chunksGo (32 * w / 8) bs'.length ((b :: bs').drop (32 * w / 8)), w, len, 0,
      decodePack ((b :: bs').take (32 * w / 8)) w⟩, ?_, ?_, rfl, ?_⟩
    · unfold BPDecoder.new
      rw [if_neg (by omega), hchunks]
    · exact ⟨decodePack_length _ _, by show (0 : Nat) ≤ 32; omega,
        fun h => absurd (show (0 : Nat) = 32 from h) (by omega)⟩
    · have hclen := chunksGo_length (32 * w / 8) hk (b :: bs').length (b :: bs') (le_refl _)
      have hchunks' : chunksGo (32 * w / 8) (b :: bs').length (b :: bs') =
          ((b :: bs').take (32 * w / 8)) ::
            chunksGo (32 * w / 8) bs'.length ((b :: bs').drop (32 * w / 8)) := hchunks
      rw [hchunks'] at hclen
      simp only [List.length_cons] at hclen
      show 32 - 0 + 32 * (chunksGo (32 * w / 8) bs'.length ((b :: bs').drop (32 * w / 8))).length =
        32 * (((b :: bs').length + 32 * w / 8 - 1) / (32 * w / 8))
      simp only [List.length_cons]
      omega

set_option maxRecDepth 40000 in
/-- C2: for a non-empty buffer, bit width 1–32 and a declared length within
the block capacity `32 * ceil(len(buffer) / (32*w/8))`, the decoder yields
`Some` exactly `length` times, then `None` regardless of leftover buffer
bytes, and `size_hint` is exactly `(remaining, Some remaining)` with
`remaining = length - produced` at every point. -/
theorem bit_packed_exact_length (bs : List Nat) (w len : Nat)
    (hbs : bs ≠ []) (hw1 : 1 ≤ w) (hw2 : w ≤ 32)
    (hlen : len ≤ 32 * ((bs.length + 32 * w / 8 - 1) / (32 * w / 8))) :
    ∃ d, BPDecoder.new bs w len = .ok d ∧ bpSizeHint d = (len, some len) ∧
      ∀ n, ∃ xs d', bpRun n d = .ok (xs, d') ∧ xs.length = min n len ∧
        bpSizeHint d' = (len - n, some (len - n)) ∧
        (len ≤ n → bpNext d' = .ok none) := by
  obtain ⟨d, hnew, hwf, hrem, hcap⟩ := BPDecoder_new_ok bs w len hbs hw1
  refine ⟨d, hnew, by simp [bpSizeHint, hrem], ?_⟩
  intro n
  rcases Nat.le_total n len with hn | hn
  · obtain ⟨xs, d', hrun, hlen', hrem', hcap', hwf'⟩ :=
      bpRun_core n d hwf (by omega) (by omega)
    refine ⟨xs, d', hrun, ?_, ?_, ?_⟩
    · rw [Nat.min_eq_left hn]
      exact hlen'
    · simp only [bpSizeHint, hrem', hrem]
    · intro hle
      exact bpNext_none d' (by omega)
  · obtain ⟨xs, d₁, hrun, hlen', hrem', hcap', hwf'⟩ :=
      bpRun_core len d hwf (by omega) (by omega)
    have hz : d₁.remaining = 0 := by omega
    have hsplit := bpRun_split len d xs d₁ hrun hlen' (n - len)
    rw [bpRun_zero_rem (n - len) d₁ hz] at hsplit
    have hn' : len + (n - len) = n := by omega
    rw [hn'] at hsplit
    have hsplit' : bpRun n d = .ok (xs, d₁) := by
      rw [hsplit]
      show Except.ok (xs ++ [], d₁) = Except.ok (xs, d₁)
      rw [List.append_nil]
    refine ⟨xs, d₁, hsplit', ?_, ?_, ?_⟩
    · rw [Nat.min_eq_right hn]
      exact hlen'
    · simp only [bpSizeHint]
      rw [hz]
      have : len - n = 0 := by omega
      rw [this]
    · intro _
      exact bpNext_none d₁ hz

/-- Witness for `bit_packed_exact_length` at the repository fixture
(bytes `[5, 57, 119]`, width 3, length 8). -/
theorem bit_packed_exact_length_witness :
    ∃ d, BPDecoder.new [5, 57, 119] 3 8 = .ok d ∧ bpSizeHint d = (8, some 8) ∧
      ∀ n, ∃ xs d', bpRun n d = .ok (xs, d') ∧ xs.length = min n 8 ∧
        bpSizeHint d' = (8 - n, some (8 - n)) ∧
        (8 ≤ n → bpNext d' = .ok none) :=
  bit_packed_exact_length [5, 57, 119] 3 8 (by decide) (by decide) (by decide)
    (by decide)

set_option maxRecDepth 40000 in
/-- C10: with a non-empty buffer and bit width 1–32, every pull of the
decoder stays in bounds (no call panics) if and only if the declared length
is at most `32 * ceil(len(buffer) / (32*w/8))`; when the length exceeds that
capacity, the pull right after the final decoded block is exhausted hits the
out-of-bounds index panic instead of returning an item or `None`. -/
theorem bit_packed_capacity_safety (bs : List Nat) (w len : Nat)
    (hbs : bs ≠ []) (hw1 : 1 ≤ w) (hw2 : w ≤ 32) :
    ∃ d, BPDecoder.new bs w len = .ok d ∧
      ((∀ n, ∃ r, bpRun n d = .ok r) ↔
        len ≤ 32 * ((bs.length + 32 * w / 8 - 1) / (32 * w / 8))) ∧
      (32 * ((bs.length + 32 * w / 8 - 1) / (32 * w / 8)) < len →
        bpRun (32 * ((bs.length + 32 * w / 8 - 1) / (32 * w / 8)) + 1) d = .error ()) := by
  obtain ⟨d, hnew, hwf, hrem, hcap⟩ := BPDecoder_new_ok bs w len hbs hw1
  have herr : capRem d < len → bpRun (capRem d + 1) d = .error () := by
    intro hlt
    obtain ⟨xs, d₁, hrun, hlen', hrem', hcap', hwf'⟩ :=
      bpRun_core (capRem d) d hwf (by omega) (le_refl _)
    have hne : bpRun 1 d₁ = .error () := by
      have h := bpNext_err d₁ hwf' (by omega) (by omega)
      simp [bpRun, h]
    have hsplit := bpRun_split (capRem d) d xs d₁ hrun hlen' 1
    rw [hne] at hsplit
    exact hsplit
  have hok : len ≤ capRem d → ∀ n, ∃ r, bpRun n d = .ok r := by
    intro hle n
    rcases Nat.le_total n len with hn | hn
    · obtain ⟨xs, d', hrun, _, _, _, _⟩ := bpRun_core n d hwf (by omega) (by omega)
      exact ⟨(xs, d'), hrun⟩
    · obtain ⟨xs, d₁, hrun, hlen', hrem', _, _⟩ :=
        bpRun_core len d hwf (by omega) (by omega)
      have hz : d₁.remaining = 0 := by omega
      have hsplit := bpRun_split len d xs d₁ hrun hlen' (n - len)
      rw [bpRun_zero_rem (n - len) d₁ hz] at hsplit
      have hn' : len + (n - len) = n := by omega
      rw [hn'] at hsplit
      exact ⟨(xs ++ [], d₁), hsplit⟩
  refine ⟨d, hnew, ⟨?_, ?_⟩, ?_⟩
  · intro hall
    by_contra hgt
    push_neg at hgt
    rw [← hcap] at hgt
    obtain ⟨r, hr⟩ := hall (capRem d + 1)
    rw [herr hgt] at hr
    exact absurd hr (by simp)
  · intro hle
    exact hok (by omega)
  · intro hlt
    rw [← hcap]
    exact herr (by omega)

/-- Witness for `bit_packed_capacity_safety` at bytes `[5, 57, 119]`,
width 3, length 8. -/
theorem bit_packed_capacity_safety_witness :
    ∃ d, BPDecoder.new [5, 57, 119] 3 8 = .ok d ∧
      ((∀ n, ∃ r, bpRun n d = .ok r) ↔
        8 ≤ 32 * ((([5, 57, 119] : List Nat).length + 32 * 3 / 8 - 1) / (32 * 3 / 8))) ∧
      (32 * ((([5, 57, 119] : List Nat).length + 32 * 3 / 8 - 1) / (32 * 3 / 8)) < 8 →
        bpRun (32 * ((([5, 57, 119] : List Nat).length + 32 * 3 / 8 - 1) / (32 * 3 / 8)) + 1) d =
          .error ()) :=
  bit_packed_capacity_safety [5, 57, 119] 3 8 (by decide) (by decide) (by decide)

/-- Embedding of `Interval` (`indexes::Interval`): a zero-based row range.
(Named `RowInterval` here because Mathlib already declares `Interval`.) -/
structure RowInterval where
  start : Nat
  length : Nat
deriving DecidableEq

/-- Embedding of the `SliceFilteredIter` struct of `deserialize/utils.rs`;
the source iterator is a list, `selected_rows` a queue of intervals. -/
structure SFI (α : Type) where
  iter : List α
  selectedRows : List RowInterval
  total : Nat
  currentRemaining : Nat
  current : Nat

/-- Embedding of `SliceFilteredIter::new`: caches the total selected rows. -/
def SFI.new {α : Type} (iter : List α) (selectedRows : List RowInterval) : SFI α :=
  ⟨iter, selectedRows, (selectedRows.map (fun x => x.length)).sum, 0, 0⟩

/-- Embedding of `SliceFilteredIter::next`: mid-interval, pull one element;
between intervals, pop the next interval and bulk-skip to its start
(`iter.nth(start - current)` = drop then head). -/
def sfiNext {α : Type} (s : SFI α) : Option α × SFI α :=
  if s.currentRemaining = 0 then
    match s.selectedRows with
    | interval :: rest =>
      ((s.iter.drop (interval.start - s.current)).head?,
        ⟨(s.iter.drop (interval.start - s.current)).tail, rest, s.total - 1,
          interval.length - 1, interval.start + interval.length⟩)
    | [] => (none, s)
  else
    (s.iter.head?,
      ⟨s.iter.tail, s.selectedRows, s.total - 1, s.currentRemaining - 1, s.current⟩)

/-- Embedding of `SliceFilteredIter::size_hint`: the minimum of the source
bound (for a list source, its length, exactly) and the cached total. -/
def sfiSizeHint {α : Type} (s : SFI α) : Nat × Option Nat :=
  (min s.iter.length s.total, some (min s.iter.length s.total))

/-- Collect up to `fuel` pulls, stopping at the first `None` (Rust `collect`). -/
def sfiRun {α : Type} : Nat → SFI α → List α
  | 0, _ => []
  | fuel + 1, s =>
    match sfiNext s with
    | (none, _) => []
    | (some x, s') => x :: sfiRun fuel s'

/-- Iterate the state part of `sfiNext`. -/
def sfiStepN {α : Type} : Nat → SFI α → SFI α
  | 0, s => s
  | n + 1, s => sfiStepN n (sfiNext s).2

/-- The selection precondition: intervals pairwise disjoint, ascending by
start, non-empty, and within the bound, starting from position `pos`. -/
def chainValidB (bound : Nat) : Nat → List RowInterval → Bool
  | _, [] => true
  | pos, iv :: rest =>
    decide (pos ≤ iv.start) && decide (1 ≤ iv.length) &&
      decide (iv.start + iv.length ≤ bound) &&
      chainValidB bound (iv.start + iv.length) rest

/-- Sum of the interval lengths of a selection. -/
def flatLen (V : List RowInterval) : Nat := (V.map (fun x => x.length)).sum

/-- The indices selected by a selection, in order. -/
def flatIdx : List RowInterval → List Nat
  | [] => []
  | iv :: rest => (List.range iv.length).map (fun i => iv.start + i) ++ flatIdx rest

theorem flatIdx_length : ∀ V : List RowInterval, (flatIdx V).length = flatLen V := by
  intro V
  induction V with
  | nil => rfl
  | cons iv rest ih => simp [flatIdx, flatLen, ih]

theorem flatIdx_bound : ∀ (V : List RowInterval) (bound pos : Nat),
    chainValidB bound pos V = true → ∀ i ∈ flatIdx V, i < bound := by
  intro V
  induction V with
  | nil =>
    intro bound pos _ i hi
    simp [flatIdx] at hi
  | cons iv rest ih =>
    intro bound pos h i hi
    simp [chainValidB] at h
    obtain ⟨⟨⟨h1, h2⟩, h3⟩, h4⟩ := h
    simp [flatIdx] at hi
    rcases hi with ⟨j, hj, rfl⟩ | hi
    · omega
    · exact ih bound _ h4 i hi

theorem filterMap_getElem_length {α : Type} (S : List α) :
    ∀ idxs : List Nat, (∀ i ∈ idxs, i < S.length) →
    (idxs.filterMap (fun i => S[i]?)).length = idxs.length := by
  intro idxs
  induction idxs with
  | nil => intro _; rfl
  | cons i is ih =>
    intro h
    have hi : i < S.length := h i (by simp)
    rw [List.filterMap_cons_some
      (show (fun j => S[j]?) i = some S[i] by simp [List.getElem?_eq_getElem hi])]
    simp only [List.length_cons]
    rw [ih (fun j hj => h j (by simp [hj]))]

theorem range_map_shift (p r : Nat) :
    (List.range (r + 1)).map (fun i => p + i) =
      p :: (List.range r).map (fun i => p + 1 + i) := by
  rw [List.range_succ_eq_map, List.map_cons, List.map_map]
  have hf : ((fun i => p + i) ∘ Nat.succ) = fun i => p + 1 + i := by
    funext i
    simp [Function.comp]
    omega
  rw [hf]
  simp

theorem range_map_pop (a L : Nat) (hL : 1 ≤ L) :
    (List.range L).map (fun i => a + i) =
      a :: (List.range (L - 1)).map (fun i => a + 1 + i) := by
  cases L with
  | zero => omega
  | succ L' => simpa using range_map_shift a L'

theorem sfiRun_general {α : Type} (S : List α) :
    ∀ (V : List RowInterval) (r p t fuel : Nat),
      p + r ≤ S.length → chainValidB S.length (p + r) V = true →
      r + flatLen V < fuel →
      sfiRun fuel ⟨S.drop p, V, t, r, p + r⟩ =
        ((List.range r).map (fun i => p + i) ++ flatIdx V).filterMap
          (fun i => S[i]?) := by
  intro V
  induction V with
  | nil =>
    intro r
    induction r with
    | zero =>
      intro p t fuel h1 h2 h3
      cases fuel with
      | zero => omega
      | succ f => rfl
    | succ r ihr =>
      intro p t fuel h1 h2 h3
      cases fuel with
      | zero => omega
      | succ f =>
        have hp : p < S.length := by omega
        have hnext0 : sfiNext (⟨S.drop p, [], t, r + 1, p + (r + 1)⟩ : SFI α) =
            ((S.drop p).head?, ⟨(S.drop p).tail, [], t - 1, r, p + (r + 1)⟩) := rfl
        rw [sfiRun, hnext0, List.head?_drop, List.getElem?_eq_getElem hp, List.tail_drop]
        show S[p] :: sfiRun f ⟨S.drop (p + 1), [], t - 1, r, p + (r + 1)⟩ = _
        have harith : p + (r + 1) = p + 1 + r := by omega
        rw [harith]
        rw [ihr (p + 1) (t - 1) f (by omega) rfl (by simp [flatLen] at h3 ⊢; omega)]
        simp only [flatIdx, List.append_nil]
        rw [range_map_shift p r]
        rw [List.filterMap_cons_some
          (show (fun j => S[j]?) p = some S[p] by simp [List.getElem?_eq_getElem hp])]
  | cons iv rest ihV =>
    intro r
    induction r with
    | zero =>
      intro p t fuel h1 h2 h3
      simp [chainValidB] at h2
      obtain ⟨⟨⟨ha, hb⟩, hc⟩, hd⟩ := h2
      cases fuel with
      | zero => omega
      | succ f =>
        have hstart : iv.start < S.length := by omega
        have hnext0 : sfiNext (⟨S.drop p, iv :: rest, t, 0, p + 0⟩ : SFI α) =
            (((S.drop p).drop (iv.start - (p + 0))).head?,
              ⟨((S.drop p).drop (iv.start - (p + 0))).tail, rest, t - 1,
                iv.length - 1, iv.start + iv.length⟩) := rfl
        rw [sfiRun, hnext0, List.drop_drop]
        have hidx : p + (iv.start - (p + 0)) = iv.start := by omega
        rw [hidx, List.head?_drop, List.getElem?_eq_getElem hstart, List.tail_drop]
        show S[iv.start] :: sfiRun f
            ⟨S.drop (iv.start + 1), rest, t - 1, iv.length - 1, iv.start + iv.length⟩ = _
        have harith : iv.start + iv.length = iv.start + 1 + (iv.length - 1) := by omega
        rw [harith]
        rw [ihV (iv.length - 1) (iv.start + 1) (t - 1) f (by omega)
          (by rw [← harith]; exact hd) (by simp [flatLen] at h3 ⊢; omega)]
        simp only [flatIdx, List.range_zero, List.map_nil, List.nil_append]
        rw [range_map_pop iv.start iv.length hb]
        simp only [List.cons_append]
        rw [List.filterMap_cons_some
          (show (fun j => S[j]?) iv.start = some S[iv.start] by
            simp [List.getElem?_eq_getElem hstart])]
    | succ r ihr =>
      intro p t fuel h1 h2 h3
      cases fuel with
      | zero => omega
      | succ f =>
        have hp : p < S.length := by omega
        have hnext0 : sfiNext (⟨S.drop p, iv :: rest, t, r + 1, p + (r + 1)⟩ : SFI α) =
            ((S.drop p).head?, ⟨(S.drop p).tail, iv :: rest, t - 1, r, p + (r + 1)⟩) := rfl
        rw [sfiRun, hnext0, List.head?_drop, List.getElem?_eq_getElem hp, List.tail_drop]
        show S[p] :: sfiRun f ⟨S.drop (p + 1), iv :: rest, t - 1, r, p + (r + 1)⟩ = _
        have harith : p + (r + 1) = p + 1 + r := by omega
        rw [harith]
        rw [ihr (p + 1) (t - 1) f (by omega) (by rw [← harith]; exact h2)
          (by simp [flatLen] at h3 ⊢; omega)]
        rw [range_map_shift p r]
        simp only [List.cons_append]
        rw [List.filterMap_cons_some
          (show (fun j => S[j]?) p = some S[p] by simp [List.getElem?_eq_getElem hp])]

/-- C4: over any source list `S` and any selection of pairwise-disjoint,
ascending, length-≥-1 intervals within the domain of `S`, collecting the
slice-filtered iterator yields exactly `[S[i] for i in flatten(V)]` in order,
and its length is the sum of the interval lengths. -/
theorem slice_filtered_projection {α : Type} (S : List α) (V : List RowInterval)
    (hV : chainValidB S.length 0 V = true) (hne : V ≠ []) :
    ∀ fuel, flatLen V < fuel →
      sfiRun fuel (SFI.new S V) = (flatIdx V).filterMap (fun i => S[i]?) ∧
      (sfiRun fuel (SFI.new S V)).length = flatLen V := by
  intro fuel hfuel
  have hstate : (SFI.new S V : SFI α) =
      ⟨S.drop 0, V, (V.map (fun x => x.length)).sum, 0, 0 + 0⟩ := by
    simp [SFI.new]
  have h0 := sfiRun_general S V 0 0 ((V.map (fun x => x.length)).sum) fuel
    (by omega) (by simpa using hV) (by omega)
  rw [hstate, h0]
  simp only [List.range_zero, List.map_nil, List.nil_append]
  refine ⟨by trivial, ?_⟩
  rw [filterMap_getElem_length S (flatIdx V) (flatIdx_bound V S.length 0 hV),
    flatIdx_length]

/-- Witness for `slice_filtered_projection`: source `[10, 11, 12, 13, 14, 15]`
with intervals `{(1, 2), (4, 1)}`. -/
theorem slice_filtered_projection_witness :
    sfiRun 4 (SFI.new [10, 11, 12, 13, 14, 15] [⟨1, 2⟩, ⟨4, 1⟩]) =
      (flatIdx [⟨1, 2⟩, ⟨4, 1⟩]).filterMap
        (fun i => ([10, 11, 12, 13, 14, 15] : List Nat)[i]?) ∧
    (sfiRun 4 (SFI.new [10, 11, 12, 13, 14, 15] [⟨1, 2⟩, ⟨4, 1⟩])).length =
      flatLen [⟨1, 2⟩, ⟨4, 1⟩] :=
  slice_filtered_projection [10, 11, 12, 13, 14, 15] [⟨1, 2⟩, ⟨4, 1⟩]
    (by decide) (by decide) 4 (by decide)

/-- C7: `size_hint` always equals the minimum of the source bound and the
cached running total, the total is decremented by one on every emission, and
concretely over source `0..=100` with intervals `{(0,2),(20,11),(31,1)}`,
after consuming 3 items the hint is exactly `(11, Some 11)`. -/
theorem slice_filtered_size_hint (α : Type) :
    (∀ (s : SFI α) (x : α) (s' : SFI α), sfiNext s = (some x, s') →
      s'.total = s.total - 1) ∧
    (∀ s : SFI α,
      sfiSizeHint s = (min s.iter.length s.total, some (min s.iter.length s.total))) ∧
    sfiSizeHint (sfiStepN 3 (SFI.new (List.range 101) [⟨0, 2⟩, ⟨20, 11⟩, ⟨31, 1⟩])) =
      (11, some 11) := by
  refine ⟨?_, fun s => rfl, by rfl⟩
  intro s x s' h
  unfold sfiNext at h
  by_cases hr : s.currentRemaining = 0
  · rw [if_pos hr] at h
    cases hsel : s.selectedRows with
    | nil =>
      rw [hsel] at h
      simp at h
    | cons iv rest =>
      rw [hsel] at h
      have h2 := congrArg Prod.snd h
      simp only at h2
      rw [← h2]
  · rw [if_neg hr] at h
    have h2 := congrArg Prod.snd h
    simp only at h2
    rw [← h2]

/-- Witness for `slice_filtered_size_hint`: the first emission from the
fixture selection decrements the total from 14 to 13. -/
theorem slice_filtered_size_hint_witness :
    ((sfiNext (SFI.new (List.range 101) [⟨0, 2⟩, ⟨20, 11⟩, ⟨31, 1⟩])).2).total =
      (SFI.new (List.range 101) [⟨0, 2⟩, ⟨20, 11⟩, ⟨31, 1⟩]).total - 1 :=
  (slice_filtered_size_hint Nat).1 _ 0 _ rfl

/-- Embedding of the `OptionalValues` struct of `deserialize/utils.rs`:
a validity iterator and a non-null values iterator, both as lists. -/
structure OptionalValues (α : Type) where
  validity : List Bool
  values : List α

/-- Embedding of `OptionalValues::next`:
`validity.next().map(|x| if x { values.next() } else { None })`. -/
def ovNext {α : Type} (s : OptionalValues α) : Option (Option α × OptionalValues α) :=
  match s.validity with
  | [] => none
  | b :: rest =>
    if b then some (s.values.head?, ⟨rest, s.values.tail⟩)
    else some (none, ⟨rest, s.values⟩)

/-- Embedding of `OptionalValues::size_hint`: the validity list's size hint. -/
def ovSizeHint {α : Type} (s : OptionalValues α) : Nat × Option Nat :=
  (s.validity.length, some s.validity.length)

/-- Collect up to `fuel` pulls, stopping at the first `None` (Rust `collect`). -/
def ovRun {α : Type} : Nat → OptionalValues α → List (Option α)
  | 0, _ => []
  | fuel + 1, s =>
    match ovNext s with
    | none => []
    | some (x, s') => x :: ovRun fuel s'

/-- The merge the spec describes: per validity entry, emit the next unconsumed
value when `true` (consuming it), emit `none` when `false` (consuming
nothing); the `true`-on-exhausted-values case is unreachable under the
precondition `count(B, true) ≤ len(X)`. -/
def specMerge {α : Type} : List Bool → List α → List (Option α)
  | [], _ => []
  | false :: bs, xs => none :: specMerge bs xs
  | true :: bs, x :: xs => some x :: specMerge bs xs
  | true :: bs, [] => none :: specMerge bs []

theorem specMerge_length {α : Type} :
    ∀ (B : List Bool) (X : List α), (specMerge B X).length = B.length := by
  intro B
  induction B with
  | nil => intro X; rfl
  | cons b bs ih =>
    intro X
    cases b with
    | false => simp [specMerge, ih]
    | true =>
      cases X with
      | nil => simp [specMerge, ih]
      | cons x xs => simp [specMerge, ih]

theorem ovRun_eq_specMerge {α : Type} :
    ∀ (B : List Bool) (X : List α) (fuel : Nat), B.count true ≤ X.length →
      B.length < fuel → ovRun fuel ⟨B, X⟩ = specMerge B X := by
  intro B
  induction B with
  | nil =>
    intro X fuel _ hf
    cases fuel with
    | zero => omega
    | succ f => rfl
  | cons b bs ih =>
    intro X fuel hcount hf
    cases fuel with
    | zero => omega
    | succ f =>
      cases b with
      | false =>
        have hnext : ovNext (⟨false :: bs, X⟩ : OptionalValues α) =
            some (none, ⟨bs, X⟩) := rfl
        rw [ovRun, hnext]
        show (none : Option α) :: ovRun f ⟨bs, X⟩ = specMerge (false :: bs) X
        rw [ih X f (by simpa using hcount) (by simpa using hf)]
        rfl
      | true =>
        cases X with
        | nil =>
          exfalso
          simp [List.count_cons] at hcount
        | cons x xs =>
          have hnext : ovNext (⟨true :: bs, x :: xs⟩ : OptionalValues α) =
              some (some x, ⟨bs, xs⟩) := rfl
          rw [ovRun, hnext]
          show some x :: ovRun f ⟨bs, xs⟩ = specMerge (true :: bs) (x :: xs)
          rw [ih xs f (by simp [List.count_cons] at hcount; omega)
            (by simpa using hf)]
          rfl

/-- C5: when the values list supplies at least as many items as there are
`true` validity entries, the optional-values iterator yields exactly
`len(B)` items, the `i`-th being `Some` of the next unconsumed value when
`B[i]` and `None` (consuming nothing) otherwise, and its size hint equals
the validity sequence's size hint. -/
theorem optional_values_merge {α : Type} (B : List Bool) (X : List α)
    (h : B.count true ≤ X.length) :
    ∀ fuel, B.length < fuel →
      ovRun fuel ⟨B, X⟩ = specMerge B X ∧
      (ovRun fuel ⟨B, X⟩).length = B.length ∧
      ovSizeHint (⟨B, X⟩ : OptionalValues α) = (B.length, some B.length) := by
  intro fuel hf
  have he := ovRun_eq_specMerge B X fuel h hf
  exact ⟨he, by rw [he, specMerge_length], rfl⟩

/-- Witness for `optional_values_merge`: validity `[true, false, true]` with
values `[10, 20]`. -/
theorem optional_values_merge_witness :
    ovRun 4 ⟨[true, false, true], [10, 20]⟩ =
      specMerge [true, false, true] [10, 20] ∧
    (ovRun 4 (⟨[true, false, true], [10, 20]⟩ : OptionalValues Nat)).length =
      ([true, false, true] : List Bool).length ∧
    ovSizeHint (⟨[true, false, true], [10, 20]⟩ : OptionalValues Nat) =
      (([true, false, true] : List Bool).length,
        some ([true, false, true] : List Bool).length) :=
  optional_values_merge [true, false, true] [10, 20] (by decide) 4 (by decide)

/-- Modelled from the spec: the `DataPage` page object (outside the source
core) supplies three physical sub-buffers (repetition levels, definition
levels, values), the page value count, and the maximum definition level of
its column descriptor. -/
structure DataPage where
  repLevels : List Nat
  defLevels : List Nat
  values : List Nat
  numValues : Nat
  maxDefLevel : Nat

/-- Modelled from the spec: `split_buffer` (outside the source core) splits
the page buffer into the three disjoint sub-slices. -/
def splitBuffer (page : DataPage) : List Nat × List Nat × List Nat :=
  (page.repLevels, page.defLevels, page.values)

/-- Modelled from the spec: `read::levels::get_bit_width` (outside the source
core) is the minimum bit count for `max_level`, i.e. `ceil(log2(max_level+1))`. -/
def getBitWidth (maxLevel : Nat) : Nat := Nat.clog 2 (maxLevel + 1)

/-- Modelled from the spec: ULEB128 varint parsing (low 7 bits first,
high bit of each byte marks continuation). -/
def uleb128 : List Nat → Option (Nat × List Nat)
  | [] => none
  | b :: rest =>
    if b % 256 < 128 then some (b % 256, rest)
    else
      match uleb128 rest with
      | some (v, r) => some (b % 128 + 128 * v, r)
      | none => none

/-- Little-endian value of a byte list. -/
def leValue (bytes : List Nat) : Nat := bytes.foldr (fun b acc => acc * 256 + b) 0

/-- Modelled from the spec: the hybrid RLE run stream — each run starts with
a ULEB128 header `h`; `h` even is an RLE run of `h >> 1` copies of one value
of `ceil(w/8)` bytes; `h` odd is a bit-packed run of `h >> 1` groups of
8 values each, packed at `w` bits, decoded via the bit-packed reference
unpacking. -/
def hybridRuns (w : Nat) : Nat → List Nat → List Nat
  | 0, _ => []
  | fuel + 1, bytes =>
    match uleb128 bytes with
    | none => []
    | some (h, rest) =>
      if h % 2 = 0 then
        List.replicate (h / 2) (leValue (rest.take ((w + 7) / 8))) ++
          hybridRuns w fuel (rest.drop ((w + 7) / 8))
      else
        specUnpack w (rest.take (h / 2 * w)) (8 * (h / 2)) ++
          hybridRuns w fuel (rest.drop (h / 2 * w))

/-- Modelled from the spec: `HybridRleDecoder` (outside the source core) —
a hybrid RLE stream over a borrowed buffer with a fixed bit width, bounded
by an explicit value count. -/
structure HybridRleDecoder where
  buffer : List Nat
  bitWidth : Nat
  numValues : Nat
deriving DecidableEq

/-- Modelled from the spec: `HybridRleDecoder::new` records the buffer, the
bit width and the declared value count. -/
def HybridRleDecoder.new (buffer : List Nat) (bitWidth : Nat) (numValues : Nat) :
    HybridRleDecoder :=
  ⟨buffer, bitWidth, numValues⟩

/-- Modelled from the spec: collecting the decoder yields the run stream
truncated to the declared value count (values beyond it are never produced). -/
def HybridRleDecoder.collect (d : HybridRleDecoder) : List Nat :=
  (hybridRuns d.bitWidth (d.buffer.length + 1) d.buffer).take d.numValues

/-- Modelled from the spec: `HybridRleIter` (outside the source core) — the
run-level iterator over a width-1 hybrid RLE stream, bounded by the page
value count; the bitmap variant of the definition-level decoder wraps it. -/
structure HybridRleIter where
  buffer : List Nat
  bitWidth : Nat
  numValues : Nat
deriving DecidableEq

/-- Embedding of the `DefLevelsDecoder` enum of `deserialize/utils.rs`. -/
inductive DefLevelsDecoder where
  | bitmap : HybridRleIter → DefLevelsDecoder
  | levels : HybridRleDecoder → Nat → DefLevelsDecoder
deriving DecidableEq

/-- Embedding of `DefLevelsDecoder::new`: a two-state choice fixed at
construction from the page's maximum definition level. -/
def DefLevelsDecoder.new (page : DataPage) : DefLevelsDecoder :=
  if page.maxDefLevel = 1 then
    .bitmap ⟨(splitBuffer page).2.1, 1, page.numValues⟩
  else
    .levels
      (HybridRleDecoder.new (splitBuffer page).2.1 (getBitWidth page.maxDefLevel)
        page.numValues)
      page.maxDefLevel

/-- Embedding of `dict_indices_decoder`: read the first byte of the values
sub-buffer as the bit width and decode the remainder as hybrid RLE with the
page's value count; `none` models the `indices_buffer[0]` panic on an empty
buffer. -/
def dictIndicesDecoder (page : DataPage) : Option HybridRleDecoder :=
  match (splitBuffer page).2.2 with
  | [] => none
  | b :: rest => some (HybridRleDecoder.new rest b page.numValues)

/-- C8: the definition-level decoder choice is made once at construction:
maximum definition level 1 yields the `Bitmap` variant wrapping a width-1
hybrid run iterator bounded by the page value count; a maximum level above 1
yields the `Levels` variant at bit width `ceil(log2(max_level+1))` bounded by
the page value count. -/
theorem def_levels_decoder_choice (page : DataPage) :
    (page.maxDefLevel = 1 →
      DefLevelsDecoder.new page = .bitmap ⟨page.defLevels, 1, page.numValues⟩) ∧
    (1 < page.maxDefLevel →
      DefLevelsDecoder.new page =
        .levels
          (HybridRleDecoder.new page.defLevels (Nat.clog 2 (page.maxDefLevel + 1))
            page.numValues)
          page.maxDefLevel) := by
  constructor
  · intro h
    unfold DefLevelsDecoder.new
    rw [if_pos h]
    rfl
  · intro h
    unfold DefLevelsDecoder.new
    rw [if_neg (by omega)]
    rfl

/-- Witness for `def_levels_decoder_choice` at two concrete pages, one with
maximum level 1 and one with maximum level 3. -/
theorem def_levels_decoder_choice_witness :
    DefLevelsDecoder.new ⟨[], [3, 4], [9], 5, 1⟩ = .bitmap ⟨[3, 4], 1, 5⟩ ∧
    DefLevelsDecoder.new ⟨[], [3, 4], [9], 5, 3⟩ =
      .levels (HybridRleDecoder.new [3, 4] (Nat.clog 2 4) 5) 3 :=
  ⟨(def_levels_decoder_choice ⟨[], [3, 4], [9], 5, 1⟩).1 rfl,
   (def_levels_decoder_choice ⟨[], [3, 4], [9], 5, 3⟩).2 (by decide)⟩

/-- C9: the dictionary-index decoder reads exactly the first byte of the
values sub-buffer as the bit width (contract: ≤ 32) and constructs the
hybrid RLE decoder over the remaining bytes with that width and the page's
declared value count, which never produces more than that count. -/
theorem dict_indices_decoder_spec (page : DataPage) (b : Nat) (rest : List Nat)
    (hv : page.values = b :: rest) (hw : b ≤ 32) :
    dictIndicesDecoder page = some (HybridRleDecoder.new rest b page.numValues) ∧
    ∀ d, dictIndicesDecoder page = some d → d.collect.length ≤ page.numValues := by
  have hd : dictIndicesDecoder page = some (HybridRleDecoder.new rest b page.numValues) := by
    unfold dictIndicesDecoder splitBuffer
    rw [hv]
  refine ⟨hd, ?_⟩
  intro d hd'
  rw [hd] at hd'
  have : HybridRleDecoder.new rest b page.numValues = d := by
    simpa using hd'
  rw [← this]
  show ((hybridRuns b (rest.length + 1) rest).take page.numValues).length ≤ page.numValues
  rw [List.length_take]
  omega

/-- Witness for `dict_indices_decoder_spec`: values buffer `[1, 3, 0, 2]`
(width byte 1), page value count 4. -/
theorem dict_indices_decoder_spec_witness :
    dictIndicesDecoder ⟨[], [], [1, 3, 0, 2], 4, 1⟩ =
      some (HybridRleDecoder.new [3, 0, 2] 1 4) ∧
    ∀ d, dictIndicesDecoder ⟨[], [], [1, 3, 0, 2], 4, 1⟩ = some d →
      d.collect.length ≤ 4 :=
  dict_indices_decoder_spec ⟨[], [], [1, 3, 0, 2], 4, 1⟩ 1 [3, 0, 2] rfl (by decide)
